import Mathlib

/-!
Shallow embedding of the `sms-data-clean` and `spam-classifier-sm` crates
(repository `morenol/smartmodule-meets-smartcore`).

Strings are modelled as `List Char`.  Rust's generic numeric element type
`T : Number` is instantiated at `Nat` (the encoder only ever produces the
values `zero`, `one` and sums of `one`s).  Rust panics (the out-of-bounds
write `add_element_mut` can perform, propagated through `to_smartcore` and
`expect`) are modelled by `Option`: `none` is a panic.  `HashMap<String,
usize>` is modelled as an association list in insertion order; its
observable interface (`entry`-vacancy, `get`, `len`) is `List.lookup` and
`List.length`.  The NLTK English stopword list lives in an external crate,
so the stopword set is an explicit parameter (see `Dataset.stopWords`).
-/

namespace SmsClean

/-- Strings as lists of characters. -/
abbrev Str := List Char

/-- Rust `char::is_ascii_punctuation`: U+0021..=U+002F, U+003A..=U+0040,
U+005B..=U+0060, U+007B..=U+007E. -/
def isAsciiPunctuation (c : Char) : Bool :=
  (33 ≤ c.toNat && c.toNat ≤ 47) || (58 ≤ c.toNat && c.toNat ≤ 64) ||
  (91 ≤ c.toNat && c.toNat ≤ 96) || (123 ≤ c.toNat && c.toNat ≤ 126)

/-- Rust `char::is_whitespace`: the Unicode `White_Space` code points. -/
def isRustWhitespace (c : Char) : Bool :=
  (9 ≤ c.toNat && c.toNat ≤ 13) || c.toNat = 32 || c.toNat = 133 ||
  c.toNat = 160 || c.toNat = 5760 || (8192 ≤ c.toNat && c.toNat ≤ 8202) ||
  c.toNat = 8232 || c.toNat = 8233 || c.toNat = 8239 || c.toNat = 8287 ||
  c.toNat = 12288

/-- Rust `char::is_ascii_whitespace`: space, tab, newline, form feed,
carriage return. -/
def isAsciiWhitespace (c : Char) : Bool :=
  c.toNat = 32 || c.toNat = 9 || c.toNat = 10 || c.toNat = 12 || c.toNat = 13

/-- Rust `str::to_lowercase` restricted to its ASCII action (`Char.toLower`
lowers exactly `A`..`Z`); every message text the claims touch is ASCII. -/
def lowerChar (c : Char) : Char := c.toLower

/-- `enum Label { Ham, Spam }` (src/crates/sms-data-clean/src/lib.rs:10-14). -/
inductive Label where
  | Ham : Label
  | Spam : Label
deriving DecidableEq, Repr

/-- `impl FromStr for Label` (lib.rs:16-26): only the exact strings
`"ham"` and `"spam"` parse; everything else is `Err(())`. -/
def labelFromStr (s : Str) : Except Unit Label :=
  if s = "ham".data then .ok .Ham
  else if s = "spam".data then .ok .Spam
  else .error ()

/-- `struct RawData { label, sms }` (lib.rs:28-32). -/
structure RawData where
  label : Label
  sms : Str
deriving DecidableEq, Repr

/-- `RawData::lowercase` (lib.rs:40-45). -/
def RawData.lowercase (r : RawData) : RawData :=
  ⟨r.label, r.sms.map lowerChar⟩

/-- `RawData::without_punctuaction` (lib.rs:47-56): keep exactly the
characters that are not ASCII punctuation, in order. -/
def RawData.withoutPunctuaction (r : RawData) : RawData :=
  ⟨r.label, r.sms.filter (fun c => !isAsciiPunctuation c)⟩

/-- The two typed line-level failures of `RawDataset::from_file`
(lib.rs:75-79): missing tab delimiter, and unrecognized label. -/
inductive LoadError where
  | format : LoadError
  | label : LoadError
deriving DecidableEq, Repr

/-- Rust `str::split_once(sep)`: split at the first occurrence of `sep`;
`none` when `sep` does not occur. -/
def splitOnce (sep : Char) : Str → Option (Str × Str)
  | [] => none
  | c :: cs =>
    if c = sep then some ([], cs)
    else (splitOnce sep cs).map (fun p => (c :: p.1, p.2))

/-- The per-line body of `RawDataset::from_file` (lib.rs:73-81):
`split_once('\t')` else `FormatError`; `Label::from_str` else `LabelError`. -/
def parseLine (line : Str) : Except LoadError RawData :=
  match splitOnce '\t' line with
  | none => .error .format
  | some (lab, sms) =>
    match labelFromStr lab with
    | .error _ => .error .label
    | .ok l => .ok ⟨l, sms⟩

/-- `struct RawDataset` (lib.rs:59-62). -/
structure RawDataset where
  data : List RawData
deriving DecidableEq, Repr

/-- `RawDataset::from_file` after line splitting (lib.rs:65-85): map
`parseLine` over the lines and collect, short-circuiting at the first
error (`collect::<Result<Vec<_>, _>>`). -/
def fromLines : List Str → Except LoadError (List RawData)
  | [] => .ok []
  | line :: rest =>
    match parseLine line, fromLines rest with
    | .error e, _ => .error e
    | .ok r, .ok rs => .ok (r :: rs)
    | .ok _, .error e => .error e

/-- `RawDataset::lowercase` (lib.rs:94-98). -/
def RawDataset.lowercase (d : RawDataset) : RawDataset :=
  ⟨d.data.map RawData.lowercase⟩

/-- `RawDataset::without_punctuaction` (lib.rs:100-108). -/
def RawDataset.withoutPunctuaction (d : RawDataset) : RawDataset :=
  ⟨d.data.map RawData.withoutPunctuaction⟩

/-- Accumulator core of Rust `split_whitespace`-style iterators: walk the
string, buffering the current word reversed in `acc`, emitting it at each
separator, discarding empty fragments. -/
def splitByAux (p : Char → Bool) : Str → Str → List Str
  | [], acc => if acc = [] then [] else [acc.reverse]
  | c :: cs, acc =>
    if p c then
      if acc = [] then splitByAux p cs []
      else acc.reverse :: splitByAux p cs []
    else splitByAux p cs (c :: acc)

/-- Rust `str::split_whitespace`: split on runs of Unicode whitespace,
discarding empty fragments. -/
def splitWhitespace (s : Str) : List Str := splitByAux isRustWhitespace s []

/-- Rust `str::split_ascii_whitespace`. -/
def splitAsciiWhitespace (s : Str) : List Str := splitByAux isAsciiWhitespace s []

/-- `struct TokenizedData { tokens }` (lib.rs:34-37). -/
structure TokenizedData where
  tokens : List Str
deriving DecidableEq, Repr

/-- `struct Dataset { labels, data }` (lib.rs:127-131). -/
structure Dataset where
  labels : List Label
  data : List TokenizedData
deriving DecidableEq, Repr

/-- `RawDataset::tokenize` (lib.rs:110-124): per row, keep the label and
split the message on whitespace; `unzip` the pairs. -/
def RawDataset.tokenize (d : RawDataset) : Dataset :=
  let lp :=
    (d.data.map (fun row => (row.label, TokenizedData.mk (splitWhitespace row.sms)))).unzip
  ⟨lp.1, lp.2⟩

/-- `Dataset::stop_words` (lib.rs:142-158).  Modelled from the spec for the
set itself: the NLTK English stopword list comes from the external
`stopwords` crate (not in this repository), so the fixed reference set is
an explicit parameter `stops`; filtering is exact string membership. -/
def Dataset.stopWords (d : Dataset) (stops : List Str) : Dataset :=
  ⟨d.labels,
    d.data.map (fun row => ⟨row.tokens.filter (fun t => !stops.contains t)⟩)⟩

/-- The label arm of `Dataset::to_smartcore` (lib.rs:166-169):
`Spam → T::one()`, `Ham → T::zero()`, at `T = Nat`. -/
def encodeLabel : Label → Nat
  | .Spam => 1
  | .Ham => 0

/-- The vocabulary, `HashMap<String, usize>`, as an association list in
insertion order. -/
abbrev Vocab := List (Str × Nat)

/-- One step of the vocabulary scan (lib.rs:174-179): on a vacant entry,
insert the token at the current counter and increment it; otherwise leave
the map and the counter unchanged. -/
def vocabInsert (st : Vocab × Nat) (w : Str) : Vocab × Nat :=
  if (st.1.lookup w).isSome then st else (st.1 ++ [(w, st.2)], st.2 + 1)

/-- The vocabulary-building scan of `Dataset::to_smartcore`
(lib.rs:171-179): fold `vocabInsert` over all tokens, records in row
order, tokens in sequence order, counter starting at 0.  Returns the map
together with the final counter. -/
def buildVocab (rows : List TokenizedData) : Vocab × Nat :=
  ((rows.map (fun r => r.tokens)).flatten).foldl vocabInsert ([], 0)

/-- `Array1::add_element_mut` on a `Vec` (used at lib.rs:210): add at
position `i`; out of bounds it is a panic, modelled as `none`. -/
def addElementMut (m : List Nat) (i : Nat) : Option (List Nat) :=
  if h : i < m.length then some (m.set i (m.get ⟨i, h⟩ + 1)) else none

/-- Loop body of `bag_of_words` (lib.rs:208-212): if the token is in the
vocabulary, add one at its index, else leave the vector unchanged. -/
def bowStep (vocab : Vocab) (m : List Nat) (token : Str) : Option (List Nat) :=
  match vocab.lookup token with
  | some i => addElementMut m i
  | none => some m

/-- `bag_of_words` (lib.rs:205-215): start from `Vec::zeros(vocabulary.len())`;
for each token present in the vocabulary add one at its index; tokens
absent from the vocabulary are skipped. -/
def bagOfWords (tokens : List Str) (vocab : Vocab) : Option (List Nat) :=
  tokens.foldlM (bowStep vocab) (List.replicate vocab.length 0)

/-- The row-encoding loop of `Dataset::to_smartcore` (lib.rs:181-185):
encode every row against the frozen vocabulary, propagating a panic. -/
def encodeRows (vocab : Vocab) : List TokenizedData → Option (List (List Nat))
  | [] => some []
  | r :: rs =>
    match bagOfWords r.tokens vocab, encodeRows vocab rs with
    | some v, some vs => some (v :: vs)
    | _, _ => none

/-- `Dataset::to_smartcore` (lib.rs:160-190) at `T = Nat`: encode the
labels, build the vocabulary in first-occurrence order, encode every row;
the matrix is its list of rows. -/
def Dataset.toSmartcore (d : Dataset) :
    Option (List (List Nat) × List Nat × Vocab) :=
  let labels := d.labels.map encodeLabel
  let vocab := (buildVocab d.data).1
  match encodeRows vocab d.data with
  | some rows => some (rows, labels, vocab)
  | none => none

/-- `create_smartcore_input` (lib.rs:193-203), taking the already-split
lines of the file and the stopword set: load, lowercase, strip
punctuation, tokenize, filter stopwords, convert.  The `expect` on a load
failure is a panic, modelled as `none`. -/
def createSmartcoreInput (stops : List Str) (lines : List Str) :
    Option (List (List Nat) × List Nat × Vocab) :=
  match fromLines lines with
  | .error _ => none
  | .ok ds =>
    ((((RawDataset.mk ds).lowercase).withoutPunctuaction).tokenize.stopWords
      stops).toSmartcore

/-- The loader-through-stopwords prefix of the training pipeline, keeping
the token sequences (used to state determinism and the training/inference
asymmetry). -/
def pipelineDataset (stops : List Str) (lines : List Str) :
    Except LoadError Dataset :=
  (fromLines lines).map (fun ds =>
    (((RawDataset.mk ds).lowercase).withoutPunctuaction).tokenize.stopWords stops)

/-- Token computation of the SmartModule `map`
(src/crates/spam-classifier-sm/src/lib.rs:13-19): strip ASCII punctuation
from the raw value, then `split_ascii_whitespace` — no lowercasing, no
stopword filtering. -/
def smTokens (raw : Str) : List Str :=
  splitAsciiWhitespace (raw.filter (fun c => !isAsciiPunctuation c))

/-- Feature encoding of the SmartModule `map` (lib.rs:21): `bag_of_words`
of `smTokens` against the baked-in frozen vocabulary. -/
def smEncode (raw : Str) (vocab : Vocab) : Option (List Nat) :=
  bagOfWords (smTokens raw) vocab

/-- Per-record token computation of the training path (the composition of
`RawData.lowercase`, `RawData.withoutPunctuaction`, the tokenizer split
and the stopword filter), for comparison with `smTokens`. -/
def trainTokens (stops : List Str) (raw : Str) : List Str :=
  (splitWhitespace ((raw.map lowerChar).filter (fun c => !isAsciiPunctuation c))).filter
    (fun t => !stops.contains t)

/-! ### Helper lemmas -/

/-- A successful `lookup` returns the value of some pair of the list. -/
theorem lookup_mem {v : Vocab} {w : Str} {i : Nat} (h : v.lookup w = some i) :
    (w, i) ∈ v := by
  rcases List.lookup_eq_some_iff.1 h with ⟨l₁, l₂, rfl, -⟩
  simp

/-- `lookup` succeeds exactly on the keys of the list. -/
theorem lookup_isSome_iff {v : Vocab} {w : Str} :
    (v.lookup w).isSome ↔ w ∈ v.map Prod.fst := by
  induction v with
  | nil => simp [List.lookup]
  | cons p rest ih =>
    obtain ⟨a, b⟩ := p
    by_cases hw : w = a
    · subst hw; simp [List.lookup_cons]
    · have hba : (w == a) = false := beq_eq_false_iff_ne.2 hw
      simp [List.lookup_cons, hba, ih, hw]

/-- Invariant of the vocabulary scan: the indices, in insertion order, are
exactly `0, 1, …`, the counter is the size of the map, and the keys are
distinct. -/
def VocabInv (st : Vocab × Nat) : Prop :=
  st.1.map Prod.snd = List.range st.1.length ∧
  st.2 = st.1.length ∧
  (st.1.map Prod.fst).Nodup

theorem vocabInsert_inv {st : Vocab × Nat} (h : VocabInv st) (w : Str) :
    VocabInv (vocabInsert st w) := by
  obtain ⟨h1, h2, h3⟩ := h
  unfold vocabInsert
  by_cases hs : (st.1.lookup w).isSome
  · simp only [hs, if_true]
    exact ⟨h1, h2, h3⟩
  · simp only [hs, if_false]
    refine ⟨?_, ?_, ?_⟩
    · simp [List.map_append, h1, h2, List.range_succ]
    · show st.2 + 1 = (st.1 ++ [(w, st.2)]).length
      rw [h2, List.length_append]
      rfl
    · have hw : w ∉ st.1.map Prod.fst := fun hmem => hs (lookup_isSome_iff.2 hmem)
      show ((st.1 ++ [(w, st.2)]).map Prod.fst).Nodup
      simp only [List.map_append, List.nodup_append]
      refine ⟨h3, by simp, ?_⟩
      intro x hx
      simp only [List.map_cons, List.map_nil, List.mem_singleton]
      intro hxw
      exact hw (hxw ▸ hx)

theorem foldl_vocabInsert_inv (ws : List Str) :
    ∀ st : Vocab × Nat, VocabInv st → VocabInv (ws.foldl vocabInsert st) := by
  induction ws with
  | nil => intro st h; exact h
  | cons w ws ih =>
    intro st h
    exact ih _ (vocabInsert_inv h w)

theorem buildVocab_inv (rows : List TokenizedData) : VocabInv (buildVocab rows) :=
  foldl_vocabInsert_inv _ _ ⟨by simp, by simp, by simp⟩

theorem buildVocab_dense (rows : List TokenizedData) :
    ∀ p ∈ (buildVocab rows).1, p.2 < (buildVocab rows).1.length := by
  intro p hp
  have h1 := (buildVocab_inv rows).1
  have hmem : p.2 ∈ (buildVocab rows).1.map Prod.snd := List.mem_map_of_mem _ hp
  rw [h1, List.mem_range] at hmem
  exact hmem

/-- Core of the encoder: folding `bowStep` over the tokens from any vector
of the vocabulary's length succeeds, preserves the length, and adds to
slot `j` the number of tokens whose vocabulary index is `j`. -/
theorem bowStep_fold (vocab : Vocab) (hd : ∀ p ∈ vocab, p.2 < vocab.length)
    (tokens : List Str) :
    ∀ m : List Nat, m.length = vocab.length →
    ∃ m', List.foldlM (bowStep vocab) m tokens = some m' ∧
      m'.length = vocab.length ∧
      ∀ j, j < vocab.length →
        m'.getD j 0 =
          m.getD j 0 + (tokens.filter (fun t => vocab.lookup t == some j)).length := by
  induction tokens with
  | nil =>
    intro m hm
    exact ⟨m, by simp, hm, by simp⟩
  | cons t ts ih =>
    intro m hm
    cases hl : vocab.lookup t with
    | none =>
      obtain ⟨m', he, hlen, hv⟩ := ih m hm
      refine ⟨m', ?_, hlen, ?_⟩
      · simp [List.foldlM_cons, bowStep, hl, he]
      · intro j hj
        rw [hv j hj]
        congr 2
        simp [List.filter_cons, hl]
    | some i =>
      have hi : i < vocab.length := hd (t, i) (lookup_mem hl)
      have him : i < m.length := by rw [hm]; exact hi
      have hstep : bowStep vocab m t = some (m.set i (m.get ⟨i, him⟩ + 1)) := by
        simp [bowStep, hl, addElementMut, him]
      have hm1 : (m.set i (m.get ⟨i, him⟩ + 1)).length = vocab.length := by
        rw [List.length_set]; exact hm
      obtain ⟨m', he, hlen, hv⟩ := ih _ hm1
      refine ⟨m', ?_, hlen, ?_⟩
      · simpa [List.foldlM_cons, hstep] using he
      · intro j hj
        rw [hv j hj]
        by_cases hji : j = i
        · subst hji
          have hget : (m.set j (m.get ⟨j, him⟩ + 1)).getD j 0 = m.getD j 0 + 1 := by
            rw [List.getD_eq_getElem?_getD, List.getElem?_set_self him,
              List.getD_eq_getElem m 0 him]
            simp [List.get_eq_getElem]
          have hfilt :
              ((t :: ts).filter (fun t => vocab.lookup t == some j)).length =
                (ts.filter (fun t => vocab.lookup t == some j)).length + 1 := by
            simp [List.filter_cons, hl]
          rw [hget, hfilt]
          omega
        · have hget : (m.set i (m.get ⟨i, him⟩ + 1)).getD j 0 = m.getD j 0 := by
            rw [List.getD_eq_getElem?_getD, List.getElem?_set_ne (fun h => hji h.symm),
              ← List.getD_eq_getElem?_getD]
          have hfilt :
              ((t :: ts).filter (fun t => vocab.lookup t == some j)).length =
                (ts.filter (fun t => vocab.lookup t == some j)).length := by
            have : (vocab.lookup t == some j) = false := by
              rw [hl]
              simp [hji]
              exact fun h => hji h.symm
            simp [List.filter_cons, this]
          rw [hget, hfilt]

/-- `bag_of_words` under the dense-index precondition: succeeds, output
length `|vocab|`, slot `j` counts the tokens with index `j`. -/
theorem bagOfWords_spec_aux (tokens : List Str) (vocab : Vocab)
    (hd : ∀ p ∈ vocab, p.2 < vocab.length) :
    ∃ m, bagOfWords tokens vocab = some m ∧ m.length = vocab.length ∧
      ∀ j, j < vocab.length →
        m.getD j 0 = (tokens.filter (fun t => vocab.lookup t == some j)).length := by
  obtain ⟨m', he, hlen, hv⟩ :=
    bowStep_fold vocab hd tokens (List.replicate vocab.length 0) (by simp)
  refine ⟨m', he, hlen, ?_⟩
  intro j hj
  have h0 : (List.replicate vocab.length 0).getD j 0 = 0 := by
    rw [List.getD_eq_getElem?_getD, List.getElem?_replicate, if_pos hj]
    rfl
  rw [hv j hj, h0, Nat.zero_add]

/-- When every token misses the vocabulary, the fold leaves the vector
untouched. -/
theorem bowStep_fold_all_none (vocab : Vocab) (tokens : List Str)
    (h : ∀ t ∈ tokens, vocab.lookup t = none) :
    ∀ m : List Nat, List.foldlM (bowStep vocab) m tokens = some m := by
  induction tokens with
  | nil => intro m; simp
  | cons t ts ih =>
    intro m
    have ht : vocab.lookup t = none := h t (List.mem_cons_self t ts)
    have hts := ih (fun x hx => h x (List.mem_cons_of_mem t hx))
    simp [List.foldlM_cons, bowStep, ht, hts]

/-- Encoding every row of a dataset against a dense vocabulary succeeds and
keeps one output row per input row. -/
theorem encodeRows_some (vocab : Vocab) (hd : ∀ p ∈ vocab, p.2 < vocab.length) :
    ∀ rows : List TokenizedData,
      ∃ vs, encodeRows vocab rows = some vs ∧ vs.length = rows.length := by
  intro rows
  induction rows with
  | nil => exact ⟨[], rfl, rfl⟩
  | cons r rs ih =>
    obtain ⟨vs, hvs, hlen⟩ := ih
    obtain ⟨v, hv, -⟩ := bagOfWords_spec_aux r.tokens vocab hd
    exact ⟨v :: vs, by simp [encodeRows, hv, hvs], by simp [hlen]⟩

/-- `to_smartcore` never fails: the vocabulary it encodes against is the one
it just built, whose indices are dense. -/
theorem toSmartcore_some (d : Dataset) :
    ∃ rows ls vocab, d.toSmartcore = some (rows, ls, vocab) ∧
      rows.length = d.data.length ∧ ls.length = d.labels.length ∧
      vocab = (buildVocab d.data).1 := by
  obtain ⟨vs, hvs, hlen⟩ := encodeRows_some _ (buildVocab_dense d.data) d.data
  exact ⟨vs, d.labels.map encodeLabel, (buildVocab d.data).1,
    by simp [Dataset.toSmartcore, hvs], hlen, by simp, rfl⟩

/-- `tokenize` emits exactly one label and one token row per input row. -/
theorem tokenize_lengths (d : RawDataset) :
    d.tokenize.labels.length = d.data.length ∧
    d.tokenize.data.length = d.data.length := by
  constructor <;> simp [RawDataset.tokenize]

/-- `split_once` finds the first occurrence of the separator. -/
theorem splitOnce_first (sep : Char) (l r : Str) (hl : sep ∉ l) :
    splitOnce sep (l ++ sep :: r) = some (l, r) := by
  induction l with
  | nil => simp [splitOnce]
  | cons c cs ih =>
    have hc : ¬(c = sep) := fun h => hl (h ▸ List.mem_cons_self c cs)
    have := ih (fun h => hl (List.mem_cons_of_mem c h))
    simp [splitOnce, hc, this]

/-- `split_once` fails exactly when the separator is absent. -/
theorem splitOnce_eq_none (sep : Char) (line : Str) :
    splitOnce sep line = none ↔ sep ∉ line := by
  induction line with
  | nil => simp [splitOnce]
  | cons c cs ih =>
    by_cases hc : c = sep
    · subst hc; simp [splitOnce]
    · simp [splitOnce, hc, ih]
      exact fun _ h => hc h.symm

/-- A line with no tab parses to the missing-delimiter error. -/
theorem parseLine_no_tab (line : Str) (h : '\t' ∉ line) :
    parseLine line = .error .format := by
  have := (splitOnce_eq_none ('\t') line).2 h
  simp [parseLine, this]

/-- A line whose label field does not parse maps to the label error. -/
theorem parseLine_bad_label (line lab sms : Str)
    (h1 : splitOnce ('\t') line = some (lab, sms))
    (h2 : labelFromStr lab = .error ()) :
    parseLine line = .error .label := by
  simp [parseLine, h1, h2]

/-- A successful load has one record per line, in line order. -/
theorem fromLines_ok (lines : List Str) (ds : List RawData)
    (h : fromLines lines = .ok ds) :
    ds.length = lines.length ∧
    ∀ i, i < lines.length →
      parseLine (lines.getD i []) = .ok (ds.getD i ⟨Label.Ham, []⟩) := by
  induction lines generalizing ds with
  | nil =>
    have : ds = [] := by
      simpa [fromLines] using h.symm
    subst this
    exact ⟨rfl, fun i hi => absurd hi (by simp)⟩
  | cons l ls ih =>
    unfold fromLines at h
    cases hp : parseLine l with
    | error e => rw [hp] at h; cases h
    | ok r =>
      cases hr : fromLines ls with
      | error e => rw [hp, hr] at h; cases h
      | ok rs =>
        rw [hp, hr] at h
        have hds : r :: rs = ds := by
          simpa using h
        subst hds
        obtain ⟨hlen, hget⟩ := ih rs hr
        refine ⟨by simp [hlen], ?_⟩
        intro i hi
        cases i with
        | zero => simpa using hp
        | succ n =>
          simp only [List.getD_cons_succ]
          exact hget n (by simpa using hi)

/-- The load short-circuits: the first failing line's error is returned. -/
theorem fromLines_error_first (pre : List Str) (line : Str) (post : List Str)
    (hpre : ∀ l ∈ pre, ∃ r, parseLine l = .ok r) (e : LoadError)
    (hline : parseLine line = .error e) :
    fromLines (pre ++ line :: post) = .error e := by
  induction pre with
  | nil => simp [fromLines, hline]
  | cons p ps ih =>
    obtain ⟨r, hr⟩ := hpre p (List.mem_cons_self p ps)
    have hrest := ih (fun l hl => hpre l (List.mem_cons_of_mem p hl))
    simp only [List.cons_append]
    unfold fromLines
    rw [hr, hrest]

/-! ### Claims -/

/-- C1: for every token sequence and every vocabulary (whose indices
satisfy the dense-range invariant of the Vocabulary data type),
`bag_of_words` returns a vector of length exactly `|vocabulary|` whose
element `j` counts the input tokens mapped to index `j`; tokens absent
from the vocabulary contribute nothing, and an empty or fully-filtered
token sequence yields the all-zero vector of length `|vocabulary|`. -/
theorem C1_bagOfWords_term_frequency (tokens : List Str) (vocab : Vocab)
    (hd : ∀ p ∈ vocab, p.2 < vocab.length) :
    ∃ m, bagOfWords tokens vocab = some m ∧ m.length = vocab.length ∧
      (∀ j, j < vocab.length →
        m.getD j 0 = (tokens.filter (fun t => vocab.lookup t == some j)).length) ∧
      ((∀ t ∈ tokens, vocab.lookup t = none) →
        m = List.replicate vocab.length 0) := by
  obtain ⟨m, he, hlen, hv⟩ := bagOfWords_spec_aux tokens vocab hd
  refine ⟨m, he, hlen, hv, ?_⟩
  intro hall
  have h2 : bagOfWords tokens vocab = some (List.replicate vocab.length 0) :=
    bowStep_fold_all_none vocab tokens hall (List.replicate vocab.length 0)
  rw [he] at h2
  exact Option.some.inj h2

/-- Witness for C1 on a concrete input: `a` occurs twice (index 0), `b`
once (index 1), `c` is out of vocabulary. -/
theorem C1_bagOfWords_term_frequency_witness :
    ∃ m, bagOfWords ["a".data, "b".data, "a".data, "c".data]
        [("a".data, 0), ("b".data, 1)] = some m ∧
      m.length = [("a".data, 0), ("b".data, 1)].length ∧
      (∀ j, j < [("a".data, 0), ("b".data, 1)].length →
        m.getD j 0 = (["a".data, "b".data, "a".data, "c".data].filter
          (fun t => [("a".data, 0), ("b".data, 1)].lookup t == some j)).length) ∧
      ((∀ t ∈ ["a".data, "b".data, "a".data, "c".data],
          [("a".data, 0), ("b".data, 1)].lookup t = none) →
        m = List.replicate [("a".data, 0), ("b".data, 1)].length 0) :=
  C1_bagOfWords_term_frequency _ _ (by decide)

/-- C2: the vocabulary built by `to_smartcore` assigns indices in
first-occurrence order with a counter starting at 0: the indices, in
insertion order, form exactly the dense range `[0, |vocabulary|)` with no
gaps or duplicates, the keys are distinct, and the final counter equals
the vocabulary size. -/
theorem C2_vocabulary_dense_range (rows : List TokenizedData) :
    (buildVocab rows).1.map Prod.snd = List.range (buildVocab rows).1.length ∧
    ((buildVocab rows).1.map Prod.fst).Nodup ∧
    (buildVocab rows).2 = (buildVocab rows).1.length := by
  obtain ⟨h1, h2, h3⟩ := buildVocab_inv rows
  exact ⟨h1, h3, h2⟩

/-- C3: the inference-time encoding of the SmartModule is the pure
composition "strip ASCII punctuation, split on (ASCII) whitespace, then
`bag_of_words`"; on `"WIN cash NOW!!!"` it neither lowercases nor filters
stopwords, while the training-path token computation applies both. -/
theorem C3_inference_no_normalization :
    (∀ raw vocab, smEncode raw vocab =
      bagOfWords (splitAsciiWhitespace
        (raw.filter (fun c => !isAsciiPunctuation c))) vocab) ∧
    smTokens "WIN cash NOW!!!".data = ["WIN".data, "cash".data, "NOW".data] ∧
    trainTokens ["now".data] "WIN cash NOW!!!".data = ["win".data, "cash".data] :=
  ⟨fun _ _ => rfl, by decide, by decide⟩

/-- C4: the §8 scenario.  On the two lines `ham\tHello, World!!` and
`spam\tWIN cash NOW!!!`, for any stopword set containing `now` but none of
the four content words, the pipeline yields token sequences
`[hello, world]` and `[win, cash]`, vocabulary
`{hello:0, world:1, win:2, cash:3}`, feature rows `[1,1,0,0]` and
`[0,0,1,1]`, and label vector `[0,1]`. -/
theorem C4_scenario (stops : List Str)
    (h0 : "now".data ∈ stops) (h1 : "hello".data ∉ stops)
    (h2 : "world".data ∉ stops) (h3 : "win".data ∉ stops)
    (h4 : "cash".data ∉ stops) :
    createSmartcoreInput stops
        ["ham\tHello, World!!".data, "spam\tWIN cash NOW!!!".data] =
      some ([[1, 1, 0, 0], [0, 0, 1, 1]], [0, 1],
        [("hello".data, 0), ("world".data, 1), ("win".data, 2), ("cash".data, 3)]) ∧
    pipelineDataset stops
        ["ham\tHello, World!!".data, "spam\tWIN cash NOW!!!".data] =
      .ok ⟨[Label.Ham, Label.Spam],
        [⟨["hello".data, "world".data]⟩, ⟨["win".data, "cash".data]⟩]⟩ := by
  have hstop : (Dataset.mk [Label.Ham, Label.Spam]
      [⟨["hello".data, "world".data]⟩,
        ⟨["win".data, "cash".data, "now".data]⟩]).stopWords stops =
      ⟨[Label.Ham, Label.Spam],
        [⟨["hello".data, "world".data]⟩, ⟨["win".data, "cash".data]⟩]⟩ := by
    simp [Dataset.stopWords, List.filter, h0, h1, h2, h3, h4]
  constructor
  · have e1 : createSmartcoreInput stops
        ["ham\tHello, World!!".data, "spam\tWIN cash NOW!!!".data] =
        ((Dataset.mk [Label.Ham, Label.Spam]
          [⟨["hello".data, "world".data]⟩,
            ⟨["win".data, "cash".data, "now".data]⟩]).stopWords stops).toSmartcore := rfl
    rw [e1, hstop]
    rfl
  · have e2 : pipelineDataset stops
        ["ham\tHello, World!!".data, "spam\tWIN cash NOW!!!".data] =
        .ok ((Dataset.mk [Label.Ham, Label.Spam]
          [⟨["hello".data, "world".data]⟩,
            ⟨["win".data, "cash".data, "now".data]⟩]).stopWords stops) := rfl
    rw [e2, hstop]

/-- Witness for C4 with the concrete stopword set `{now}`. -/
theorem C4_scenario_witness :
    createSmartcoreInput ["now".data]
        ["ham\tHello, World!!".data, "spam\tWIN cash NOW!!!".data] =
      some ([[1, 1, 0, 0], [0, 0, 1, 1]], [0, 1],
        [("hello".data, 0), ("world".data, 1), ("win".data, 2), ("cash".data, 3)]) ∧
    pipelineDataset ["now".data]
        ["ham\tHello, World!!".data, "spam\tWIN cash NOW!!!".data] =
      .ok ⟨[Label.Ham, Label.Spam],
        [⟨["hello".data, "world".data]⟩, ⟨["win".data, "cash".data]⟩]⟩ :=
  C4_scenario ["now".data] (by decide) (by decide) (by decide) (by decide) (by decide)

/-- C5: label round-trip: `"ham"` parses to `Ham` which encodes to 0,
`"spam"` parses to `Spam` which encodes to 1, and every other string fails
to parse with the label error. -/
theorem C5_label_roundtrip :
    labelFromStr "ham".data = .ok Label.Ham ∧ encodeLabel Label.Ham = 0 ∧
    labelFromStr "spam".data = .ok Label.Spam ∧ encodeLabel Label.Spam = 1 ∧
    ∀ s : Str, s ≠ "ham".data → s ≠ "spam".data → labelFromStr s = .error () := by
  refine ⟨rfl, rfl, rfl, rfl, ?_⟩
  intro s hs1 hs2
  simp [labelFromStr, hs1, hs2]

/-- Witness for C5: a concrete unrecognized label string is rejected. -/
theorem C5_label_roundtrip_witness : labelFromStr "Spam".data = .error () :=
  C5_label_roundtrip.2.2.2.2 "Spam".data (by decide) (by decide)

/-- C6: the loader yields one record per line in line order on success
(no row dropped or reordered); a line with no tab fails with the format
error, a line with a bad label field fails with the label error, and any
line failure makes the whole load return only that error (no partial
dataset). -/
theorem C6_recordLoader (lines : List Str) :
    (∀ ds, fromLines lines = .ok ds →
      ds.length = lines.length ∧
      ∀ i, i < lines.length →
        parseLine (lines.getD i []) = .ok (ds.getD i ⟨Label.Ham, []⟩)) ∧
    (∀ pre line post, lines = pre ++ line :: post →
      (∀ l ∈ pre, ∃ r, parseLine l = .ok r) →
      ∀ e, parseLine line = .error e → fromLines lines = .error e) ∧
    (∀ line : Str, '\t' ∉ line → parseLine line = .error .format) ∧
    (∀ line lab sms : Str, splitOnce ('\t') line = some (lab, sms) →
      labelFromStr lab = .error () → parseLine line = .error .label) := by
  refine ⟨fun ds h => fromLines_ok lines ds h, ?_, ?_, ?_⟩
  · rintro pre line post rfl hpre e he
    exact fromLines_error_first pre line post hpre e he
  · intro line h
    exact parseLine_no_tab line h
  · intro line lab sms h1 h2
    exact parseLine_bad_label line lab sms h1 h2

/-- Witness for C6: a bad label on the second line aborts the whole load
with the label error, after a well-formed first line. -/
theorem C6_recordLoader_witness :
    fromLines ["ham\ta".data, "Spam\tb".data, "spam\tc".data] =
      .error LoadError.label :=
  (C6_recordLoader _).2.1 ["ham\ta".data] "Spam\tb".data ["spam\tc".data] rfl
    (by
      intro l hl
      rw [List.mem_singleton] at hl
      subst hl
      exact ⟨⟨Label.Ham, "a".data⟩, rfl⟩)
    LoadError.label rfl

/-- C7: every stage (lowercase, punctuation stripping, tokenize, stopword
filtering, conversion) preserves record count and label/row alignment:
after each stage the labels and token rows (or feature rows) both number
exactly the originally loaded records. -/
theorem C7_stage_alignment (rds : RawDataset) (stops : List Str) :
    rds.lowercase.data.length = rds.data.length ∧
    rds.lowercase.withoutPunctuaction.data.length = rds.data.length ∧
    rds.lowercase.withoutPunctuaction.tokenize.labels.length = rds.data.length ∧
    rds.lowercase.withoutPunctuaction.tokenize.data.length = rds.data.length ∧
    (rds.lowercase.withoutPunctuaction.tokenize.stopWords stops).labels.length
      = rds.data.length ∧
    (rds.lowercase.withoutPunctuaction.tokenize.stopWords stops).data.length
      = rds.data.length ∧
    ∃ rows ls vocab,
      (rds.lowercase.withoutPunctuaction.tokenize.stopWords stops).toSmartcore
        = some (rows, ls, vocab) ∧
      rows.length = rds.data.length ∧ ls.length = rds.data.length := by
  obtain ⟨rows, ls, vocab, hsc, hrows, hls, -⟩ :=
    toSmartcore_some (rds.lowercase.withoutPunctuaction.tokenize.stopWords stops)
  refine ⟨by simp [RawDataset.lowercase], ?_, ?_, ?_, ?_, ?_, rows, ls, vocab, hsc, ?_, ?_⟩ <;>
    simp [RawDataset.lowercase, RawDataset.withoutPunctuaction, RawDataset.tokenize,
      Dataset.stopWords] at hrows hls ⊢ <;>
    omega

/-- C8: determinism: two runs of the full training pipeline on equal input
lines with equal stopword sets produce identical output — the same
vocabulary mapping and the same per-record token sequences. -/
theorem C8_pipeline_deterministic (stops1 stops2 lines1 lines2 : List Str)
    (hs : stops1 = stops2) (hl : lines1 = lines2) :
    createSmartcoreInput stops1 lines1 = createSmartcoreInput stops2 lines2 ∧
    pipelineDataset stops1 lines1 = pipelineDataset stops2 lines2 := by
  subst hs
  subst hl
  exact ⟨rfl, rfl⟩

/-- Witness for C8 on a concrete input. -/
theorem C8_pipeline_deterministic_witness :
    createSmartcoreInput ["now".data] ["ham\thi there".data] =
      createSmartcoreInput ["now".data] ["ham\thi there".data] ∧
    pipelineDataset ["now".data] ["ham\thi there".data] =
      pipelineDataset ["now".data] ["ham\thi there".data] :=
  C8_pipeline_deterministic _ _ _ _ rfl rfl

/-- C9: under the dense-index precondition (every assigned index strictly
below the number of entries), `bag_of_words` only ever writes in bounds —
it never reaches the out-of-range panic — for every input token
sequence. -/
theorem C9_bagOfWords_in_bounds (tokens : List Str) (vocab : Vocab)
    (hd : ∀ p ∈ vocab, p.2 < vocab.length) :
    (bagOfWords tokens vocab).isSome := by
  obtain ⟨m, he, -⟩ := bagOfWords_spec_aux tokens vocab hd
  rw [he]
  rfl

/-- Witness for C9 on a concrete deserialized-style vocabulary. -/
theorem C9_bagOfWords_in_bounds_witness :
    (bagOfWords ["spam".data, "offer".data, "spam".data]
      [("offer".data, 0), ("spam".data, 1)]).isSome :=
  C9_bagOfWords_in_bounds _ _ (by decide)

/-- C10: the loader splits a line at its first tab only: the text before
it is the label field and the entire remainder — further tabs included —
is the message; a line with more than one tab is accepted. -/
theorem C10_first_tab_only (msg : Str) :
    parseLine ("ham".data ++ '\t' :: msg) = .ok ⟨Label.Ham, msg⟩ ∧
    parseLine "ham\ta\tb".data = .ok ⟨Label.Ham, "a\tb".data⟩ := by
  constructor
  · have h : splitOnce ('\t') ("ham".data ++ '\t' :: msg) =
        some ("ham".data, msg) :=
      splitOnce_first ('\t') "ham".data msg (by decide)
    unfold parseLine
    rw [h]
    rfl
  · rfl

end SmsClean
